import Mathlib

/-!
Verification development for the Git Repository File Selector script
(`git_file_selector.py`).  The script's internal logic — path handling,
lazy enumeration of tracked files, date filtering, the memoized listing,
repository synchronization and the parallel copy step — is embedded
shallowly below.  External collaborators (GitPython, the filesystem and
the Streamlit widget loop) are modelled as explicit oracles / state:

* a repository tree is a list of entries (blobs and trees) with paths;
* the "most recent commit touching a path" lookup is an oracle
  `Str → Option Str` returning the already-formatted timestamp string
  (the code formats `commit.committed_date` with strftime and only ever
  consumes the resulting string), `none` modelling `StopIteration`;
* the filesystem is an association list of (path, content) plus a set of
  existing directories;
* success / failure of `origin.pull()` and `Repo.clone_from` are boolean
  oracles, since they depend on the network and the on-disk state.

Strings are modelled as `List Char` so that Python's string operations
(`in`, slicing by `rfind`) have direct, provable counterparts.  The date
parser below follows CPython's `_strptime` for the exact format
`'%Y-%m-%d %H:%M:%S'` (ASCII inputs): `%Y` is exactly four digits, the
numeric fields accept one or two digits with the documented alternation,
whitespace in the format matches a nonempty run of whitespace, the whole
input must be consumed, and the `datetime` constructor then validates
the calendar day and rejects leap seconds.
-/

namespace GitFileSelector

/-- Paths and file contents are Python strings, modelled as `List Char`. -/
abbrev Str := List Char

/-- Convert a Lean string literal to the model's string type. -/
def str (s : String) : Str := s.toList

/-- The POSIX path separator used by the script's repository paths. -/
def sep : Char := '/'

/-! ### Path primitives (`os.path.basename`, `os.path.dirname`, `os.path.join`) -/

/-- Model of `os.path.basename` (posixpath): everything after the last slash. -/
def basename (p : Str) : Str := (p.reverse.takeWhile (fun c => c ≠ sep)).reverse

/-- The prefix `p[:i]` with `i = p.rfind(sep) + 1`: everything up to and
including the last slash (empty when there is no slash). -/
def rawHead (p : Str) : Str := (p.reverse.dropWhile (fun c => c ≠ sep)).reverse

/-- Drop the trailing run of slashes (Python's `head.rstrip(sep)`). -/
def rstripSep (p : Str) : Str := (p.reverse.dropWhile (fun c => c = sep)).reverse

/-- Model of `os.path.dirname` (posixpath): the head before the basename,
with trailing slashes stripped unless the head consists only of slashes. -/
def dirname (p : Str) : Str :=
  let head := rawHead p
  if head ≠ [] ∧ ¬ (head.all (fun c => c = sep)) then rstripSep head else head

/-- Model of two-argument `os.path.join` (posixpath) for the separator `sep`. -/
def pathJoin (a b : Str) : Str :=
  if b.head? = some sep then b
  else if a = [] ∨ a.getLast? = some sep then a ++ b
  else a ++ sep :: b

/-- Join path components with single separators (the shape of every path git
stores in a tree: nonempty, slash-free components). -/
def normPath : List Str → Str
  | [] => []
  | [c] => c
  | c :: cs => c ++ sep :: normPath cs

/-- The components of a normalized repository path: nonempty and slash-free. -/
def NormComps (comps : List Str) : Prop :=
  comps ≠ [] ∧ ∀ c ∈ comps, c ≠ [] ∧ sep ∉ c

/-- A string is a normalized repository-relative path when it is the join of
nonempty slash-free components, as every path in a git tree is. -/
def IsNormPath (p : Str) : Prop := ∃ comps, NormComps comps ∧ p = normPath comps

/-! ### Data model: tree entries and file records -/

/-- The `type` tag GitPython exposes on traversed tree objects. -/
inductive EntryType
  | blob
  | tree
deriving DecidableEq

/-- One object yielded by `repo.tree().traverse()`: a tag and its
repository-relative path. -/
structure TreeEntry where
  type : EntryType
  path : Str
deriving DecidableEq

/-- One row produced by the enumerator: the dictionary
`{"Subdirectory": ..., "File": ..., "Last Modified": ...}`. -/
structure FileRecord where
  subdirectory : Str
  file : Str
  lastModified : Str
deriving DecidableEq

/-! ### File Enumerator (`list_files_with_git_dates_lazy`, lines 32-48) -/

/-- The record built for one blob path.  `lastMod` is the oracle for
`next(repo.iter_commits(paths=blob.path, max_count=1))` followed by the
strftime formatting; `none` models `StopIteration`, which the code turns
into the sentinel `"Unknown"`. -/
def recordOf (lastMod : Str → Option Str) (path : Str) : FileRecord :=
  { subdirectory := dirname path
    file := basename path
    lastModified :=
      match lastMod path with
      | some t => t
      | none => str "Unknown" }

/-- The guard `if subdirectory_filter and subdirectory_filter not in
subdirectory: continue` (line 37).  `none` models passing `None`; an empty
string is falsy in Python, so it also disables the filter; otherwise the
test is substring containment. -/
def skipByFilter (subdirectory_filter : Option Str) (subdirectory : Str) : Bool :=
  match subdirectory_filter with
  | none => false
  | some s => !s.isEmpty && !(decide (s <:+: subdirectory))

/-- Model of `list_files_with_git_dates_lazy` (lines 32-48): walk the
traversal order of the tree, keep blobs passing the subdirectory filter,
and build one record per kept blob.  The generator is modelled as the list
of the values it yields. -/
def list_files_with_git_dates_lazy (tree : List TreeEntry) (lastMod : Str → Option Str)
    (subdirectory_filter : Option Str) : List FileRecord :=
  match tree with
  | [] => []
  | blob :: rest =>
    let tail := list_files_with_git_dates_lazy rest lastMod subdirectory_filter
    if blob.type = EntryType.blob then
      if skipByFilter subdirectory_filter (dirname blob.path) then tail
      else recordOf lastMod blob.path :: tail
    else tail

/-! ### Calendar dates and `datetime.strptime(..., '%Y-%m-%d %H:%M:%S').date()` -/

/-- A Python `datetime.date`. -/
structure Date where
  year : Nat
  month : Nat
  day : Nat
deriving DecidableEq

/-- Python's `date` ordering: lexicographic on (year, month, day). -/
def dateLe (a b : Date) : Bool :=
  if a.year < b.year then true
  else if b.year < a.year then false
  else if a.month < b.month then true
  else if b.month < a.month then false
  else decide (a.day ≤ b.day)

/-- Numeric value of a decimal digit character. -/
def digitVal (c : Char) : Nat := c.toNat - '0'.toNat

/-- The `%Y` directive: exactly four digits. -/
def parse4 : Str → Option (Nat × Str)
  | c1 :: c2 :: c3 :: c4 :: rest =>
    if c1.isDigit && c2.isDigit && c3.isDigit && c4.isDigit then
      some (digitVal c1 * 1000 + digitVal c2 * 100 + digitVal c3 * 10 + digitVal c4, rest)
    else none
  | _ => none

/-- A one-or-two digit numeric directive.  CPython compiles each such
directive to an alternation trying the two-digit forms first; because every
directive here is followed by a non-digit literal (or the end-of-input
check), a two-digit match that later fails can never be rescued by
backtracking to the one-digit form, so the greedy choice below is exact. -/
def parseField (twoOk oneOk : Nat → Bool) : Str → Option (Nat × Str)
  | c1 :: c2 :: rest =>
    if c1.isDigit && c2.isDigit && twoOk (digitVal c1 * 10 + digitVal c2) then
      some (digitVal c1 * 10 + digitVal c2, rest)
    else if c1.isDigit && oneOk (digitVal c1) then
      some (digitVal c1, c2 :: rest)
    else none
  | [c1] =>
    if c1.isDigit && oneOk (digitVal c1) then some (digitVal c1, []) else none
  | [] => none

/-- Match one literal character of the format. -/
def expectChar (c : Char) : Str → Option Str
  | x :: rest => if x = c then some rest else none
  | [] => none

/-- ASCII whitespace, the `\s` class on the inputs this program produces. -/
def isSpaceChar (c : Char) : Bool :=
  c = ' ' || c = '\t' || c = '\n' || c = '\r' || c = Char.ofNat 11 || c = Char.ofNat 12

/-- Whitespace in a strptime format matches a nonempty run of whitespace. -/
def expectSpaces : Str → Option Str
  | c :: rest => if isSpaceChar c then some (rest.dropWhile isSpaceChar) else none
  | [] => none

/-- Gregorian leap-year rule, as in `datetime`. -/
def isLeap (y : Nat) : Bool := (y % 4 = 0 && y % 100 ≠ 0) || y % 400 = 0

/-- Days in a month, as validated by the `datetime` constructor. -/
def daysInMonth (y m : Nat) : Nat :=
  if m = 2 then (if isLeap y then 29 else 28)
  else if m = 4 ∨ m = 6 ∨ m = 9 ∨ m = 11 then 30
  else 31

/-- Model of `datetime.strptime(s, '%Y-%m-%d %H:%M:%S').date()` (line 56):
`none` models the `ValueError` the code catches.  The field patterns are
CPython's: month `1[0-2]|0[1-9]|[1-9]`, day `3[01]|[12]\d|0[1-9]|[1-9]`,
hour `2[0-3]|[0-1]\d|\d`, minute `[0-5]\d|\d`, second `6[0-1]|[0-5]\d|\d`;
the whole string must be consumed, and the `datetime` constructor then
requires year ≥ 1, a valid calendar day, and second ≤ 59. -/
def strptimeDate (s : Str) : Option Date := do
  let (y, r1) ← parse4 s
  let r2 ← expectChar '-' r1
  let (m, r3) ← parseField (fun v => 1 ≤ v && v ≤ 12) (fun v => 1 ≤ v) r2
  let r4 ← expectChar '-' r3
  let (d, r5) ← parseField (fun v => 1 ≤ v && v ≤ 31) (fun v => 1 ≤ v) r4
  let r6 ← expectSpaces r5
  let (_hh, r7) ← parseField (fun v => v ≤ 23) (fun _ => true) r6
  let r8 ← expectChar ':' r7
  let (_mm, r9) ← parseField (fun v => v ≤ 59) (fun _ => true) r8
  let r10 ← expectChar ':' r9
  let (ss, r11) ← parseField (fun v => v ≤ 61) (fun _ => true) r10
  if r11.isEmpty ∧ 1 ≤ y ∧ d ≤ daysInMonth y m ∧ ss ≤ 59 then
    pure { year := y, month := m, day := d }
  else none

/-! ### Date Filter (`filter_files_on_load`, lines 50-61) -/

/-- The loop body of `filter_files_on_load` (lines 53-61), applied to the
sequence of records coming out of the enumerator: with a range present,
parse `"Last Modified"`; a `ValueError` (`none`) drops the record, and a
parsed date is kept exactly when it lies in the inclusive range. -/
def dateFilterLoop (records : List FileRecord) (date_range : Option (Date × Date)) :
    List FileRecord :=
  match records with
  | [] => []
  | file_data :: rest =>
    match date_range with
    | none => file_data :: dateFilterLoop rest none
    | some (d0, d1) =>
      match strptimeDate file_data.lastModified with
      | none => dateFilterLoop rest (some (d0, d1))
      | some file_date =>
        if dateLe d0 file_date && dateLe file_date d1 then
          file_data :: dateFilterLoop rest (some (d0, d1))
        else dateFilterLoop rest (some (d0, d1))

/-- Model of `filter_files_on_load` (lines 50-61): enumerate lazily, then
filter by date range. -/
def filter_files_on_load (tree : List TreeEntry) (lastMod : Str → Option Str)
    (subdirectory_filter : Option Str) (date_range : Option (Date × Date)) :
    List FileRecord :=
  dateFilterLoop (list_files_with_git_dates_lazy tree lastMod subdirectory_filter) date_range

/-! ### Repository Synchronizer (`remove_directory` lines 9-16,
`clone_or_update_repository` lines 18-30) -/

/-- A GitPython `Repo` handle, identified by the remote URL its working
directory was cloned from (the only attribute the claims observe). -/
structure RepoHandle where
  url : Str
deriving DecidableEq

/-- The state of the working directory on disk: absent, or a clone whose
`origin` remote points at the given URL. -/
inductive DiskState
  | absent
  | repoAt (origin : Str)
deriving DecidableEq

/-- The externally visible operations `clone_or_update_repository` can
perform, in order: `Repo(clone_dir)` + `origin.pull()` (one unit, any of
whose steps can raise), `remove_directory`, and `Repo.clone_from`. -/
inductive GitAction
  | openAndPull
  | removeDir
  | cloneFrom (url : Str)
deriving DecidableEq

/-- Result of the synchronizer: the returned handle (or the propagated
exception), the resulting disk state, and the trace of operations. -/
structure SyncResult where
  handle : Except Unit RepoHandle
  disk : DiskState
  trace : List GitAction

/-- Model of `remove_directory` (lines 9-16): `shutil.rmtree` when the path
exists, a no-op otherwise; either way the directory is gone. -/
def remove_directory (_disk : DiskState) : DiskState := DiskState.absent

/-- Model of `clone_or_update_repository` (lines 18-30).  `pullOk` is the
oracle for the try block succeeding (`Repo(clone_dir)` constructs, an
`origin` remote exists, and `origin.pull()` succeeds); `cloneOk` is the
oracle for `Repo.clone_from` succeeding.  A failed clone propagates its
exception and leaves no usable directory behind. -/
def clone_or_update_repository (repo_url : Str) (disk : DiskState)
    (pullOk cloneOk : Bool) : SyncResult :=
  match disk with
  | DiskState.repoAt origin =>
    if pullOk then
      { handle := Except.ok { url := origin }
        disk := DiskState.repoAt origin
        trace := [GitAction.openAndPull] }
    else
      let removed := remove_directory (DiskState.repoAt origin)
      if cloneOk then
        { handle := Except.ok { url := repo_url }
          disk := DiskState.repoAt repo_url
          trace := [GitAction.openAndPull, GitAction.removeDir, GitAction.cloneFrom repo_url] }
      else
        { handle := Except.error ()
          disk := removed
          trace := [GitAction.openAndPull, GitAction.removeDir, GitAction.cloneFrom repo_url] }
  | DiskState.absent =>
    if cloneOk then
      { handle := Except.ok { url := repo_url }
        disk := DiskState.repoAt repo_url
        trace := [GitAction.cloneFrom repo_url] }
    else
      { handle := Except.error ()
        disk := DiskState.absent
        trace := [GitAction.cloneFrom repo_url] }

/-! ### Filesystem and the Parallel Copier (`copy_files_in_parallel`,
lines 69-80) -/

/-- A filesystem: regular files as an association list from path to
content, plus the set of existing directories. -/
structure FS where
  files : List (Str × Str)
  dirs : List Str
deriving DecidableEq

/-- Look a path up in the file table (first match wins). -/
def getFile : List (Str × Str) → Str → Option Str
  | [], _ => none
  | (k0, v0) :: rest, k => if k0 = k then some v0 else getFile rest k

/-- Write a file: replace the existing entry for the path or add one. -/
def setFile : List (Str × Str) → Str → Str → List (Str × Str)
  | [], k, v => [(k, v)]
  | (k0, v0) :: rest, k, v =>
    if k0 = k then (k, v) :: rest else (k0, v0) :: setFile rest k v

/-- Model of `os.makedirs(d, exist_ok=True)`: ensure the directory exists.
(Ancestor directories are elided: no operation in the script observes
them.) -/
def makedirs (d : Str) (fs : FS) : FS :=
  if d ∈ fs.dirs then fs else { fs with dirs := d :: fs.dirs }

/-- Model of `shutil.copy2 src dst`: read the source and write the
destination, provided the source exists and the destination's directory
does; the returned flag is `false` when the call raised (the exception a
worker thread stores in its future). -/
def copy2 (src dst : Str) (fs : FS) : FS × Bool :=
  match getFile fs.files src with
  | some content =>
    if dirname dst ∈ fs.dirs then
      ({ fs with files := setFile fs.files dst content }, true)
    else (fs, false)
  | none => (fs, false)

/-- The `relative_path` of a selected row (line 75). -/
def relativePathOf (row : FileRecord) : Str := pathJoin row.subdirectory row.file

/-- The `source_path` of a selected row (line 76). -/
def sourcePathOf (clone_dir : Str) (row : FileRecord) : Str :=
  pathJoin clone_dir (relativePathOf row)

/-- The `dest_path` of a selected row (line 77). -/
def destPathOf (download_dir : Str) (row : FileRecord) : Str :=
  pathJoin download_dir (relativePathOf row)

/-- The submission loop of `copy_files_in_parallel` (lines 74-80),
sequentialized: each iteration creates the destination directory and then
performs the submitted copy.  This is faithful because the workers share no
state — each copy reads one source path and writes one distinct destination
path, a worker's destination directory is created before its job is
submitted, and `makedirs` only ever adds directories — so every
interleaving of the pool computes the same final filesystem.  The boolean
accumulates whether any future holds an exception; `concurrent.futures.wait`
(line 80) does not re-raise stored exceptions and no caller ever inspects
the futures, so this flag is invisible to the rest of the program. -/
def copyLoop (rows : List FileRecord) (clone_dir download_dir : Str)
    (fs : FS) (failed : Bool) : FS × Bool :=
  match rows with
  | [] => (fs, failed)
  | row :: rest =>
    let dest_path := destPathOf download_dir row
    let fs1 := makedirs (dirname dest_path) fs
    let out := copy2 (sourcePathOf clone_dir row) dest_path fs1
    copyLoop rest clone_dir download_dir out.1 (failed || !out.2)

/-- Model of `copy_files_in_parallel` (lines 69-80): create the download
directory, dispatch one copy per selected row, wait for all of them.  The
function itself returns normally even when copies failed. -/
def copy_files_in_parallel (selected_files : List FileRecord)
    (clone_dir download_dir : Str) (fs : FS) : FS × Bool :=
  copyLoop selected_files clone_dir download_dir (makedirs download_dir fs) false

/-- The user-visible outcome of the download action. -/
inductive Banner
  | successBanner
  | errorBanner
deriving DecidableEq

/-- Model of the "Download Selected Files" handler (lines 157-166): an
empty selection shows an error; otherwise `copy_files_in_parallel` runs and
— since worker exceptions stay inside their futures and line 80 only waits —
returns normally, so the handler always reaches the success banner. -/
def downloadAction (selected_files : List FileRecord)
    (clone_dir download_dir : Str) (fs : FS) : FS × Banner :=
  if selected_files.isEmpty then (fs, Banner.errorBanner)
  else
    let out := copy_files_in_parallel selected_files clone_dir download_dir fs
    (out.1, Banner.successBanner)

/-! ### Listing Cache (`get_filtered_files`, lines 63-67) and the session
loop (`main`, lines 82-169) -/

/-- The state of the remote repository and of the network, as seen by one
invocation: the tree to traverse, the last-commit oracle, and the
success oracles for pull and clone. -/
structure RepoWorld where
  tree : List TreeEntry
  lastMod : Str → Option Str
  pullOk : Bool
  cloneOk : Bool

/-- The argument tuple `st.cache_data` keys the memoization by. -/
structure ListingKey where
  repo_url : Str
  clone_dir : Str
  subdirectory_filter : Option Str
  date_range : Option (Date × Date)
deriving DecidableEq

/-- Accesses the cached function performs on a miss. -/
inductive AccessEffect
  | repositoryAccess
  | filesystemAccess
deriving DecidableEq

/-- Result of one call to the cached listing: the table (or the propagated
clone exception), the updated memo table, the resulting disk state, and the
accesses performed. -/
structure GetFilesResult where
  table : Except Unit (List FileRecord)
  cache : List (ListingKey × List FileRecord)
  disk : DiskState
  effects : List AccessEffect

/-- Look a key up in the memo table. -/
def lookupCache : List (ListingKey × List FileRecord) → ListingKey →
    Option (List FileRecord)
  | [], _ => none
  | (k0, t0) :: rest, k => if k0 = k then some t0 else lookupCache rest k

/-- Modelled from the spec: the memoization `@st.cache_data` (line 63)
wraps around the body of `get_filtered_files` is provided by Streamlit,
not by this repository, so its contract is taken from the spec — the
result is "memoized by the full argument tuple"; a hit returns "the
previously materialized table without touching the filesystem or the
repository client"; a miss runs the body (lines 66-67: synchronize, then
enumerate and filter).  A clone failure inside the body propagates and
caches nothing. -/
def get_filtered_files (w : RepoWorld) (key : ListingKey)
    (cache : List (ListingKey × List FileRecord)) (disk : DiskState) :
    GetFilesResult :=
  match lookupCache cache key with
  | some table => { table := Except.ok table, cache := cache, disk := disk, effects := [] }
  | none =>
    let sync := clone_or_update_repository key.repo_url disk w.pullOk w.cloneOk
    match sync.handle with
    | Except.error e =>
      { table := Except.error e
        cache := cache
        disk := sync.disk
        effects := [AccessEffect.repositoryAccess, AccessEffect.filesystemAccess] }
    | Except.ok _ =>
      let table := filter_files_on_load w.tree w.lastMod key.subdirectory_filter key.date_range
      { table := Except.ok table
        cache := (key, table) :: cache
        disk := sync.disk
        effects := [AccessEffect.repositoryAccess, AccessEffect.filesystemAccess] }

/-- The fixed working directory `os.path.join(os.getcwd(), "temp_repo")`
(line 89), with the process's current directory left abstract. -/
def clone_dir_path : Str := str "temp_repo"

/-- The `st.session_state` of `main` together with the on-disk working
directory and the process-lifetime memo table. -/
structure SessionState where
  last_repo_url : Str
  files_loaded : Bool
  disk : DiskState
  cache : List (ListingKey × List FileRecord)

/-- One rerun's widget values and world state: the URL in the text field,
whether "Clone Repository" was clicked, the subdirectory choice (`none`
models "All"), the date-picker range when the date widgets rendered, and
the remote world. -/
structure RerunInput where
  repo_url : Str
  cloneClicked : Bool
  subdir_filter : Option Str
  date_range : Option (Date × Date)
  world : RepoWorld

/-- Lines 97-101: on a URL change, record the new URL, reset the load
flag, and delete any existing working directory. -/
def urlCheckPhase (inp : RerunInput) (s : SessionState) : SessionState :=
  if inp.repo_url ≠ s.last_repo_url then
    { s with
      last_repo_url := inp.repo_url
      files_loaded := false
      disk := remove_directory s.disk }
  else s

/-- Lines 103-114: the "Clone Repository" button.  An empty URL only shows
an error; otherwise the synchronizer runs, success sets the load flag, and
failure shows an error and returns early (the flag is `true` when the rest
of `main` is skipped this rerun). -/
def cloneButtonPhase (inp : RerunInput) (s : SessionState) : SessionState × Bool :=
  if inp.cloneClicked then
    if inp.repo_url = [] then (s, false)
    else
      let sync := clone_or_update_repository inp.repo_url s.disk inp.world.pullOk inp.world.cloneOk
      match sync.handle with
      | Except.ok _ => ({ s with disk := sync.disk, files_loaded := true }, false)
      | Except.error _ => ({ s with disk := sync.disk }, true)
  else (s, false)

/-- Lines 117-169: when files are loaded, open the working directory (an
absent or invalid directory raises `InvalidGitRepositoryError`, caught at
line 168 with no state change) and call the cached listing, a second time
when the date widgets rendered and produced a range (lines 141-145).  The
download handler (lines 157-166) touches only the download folder, not the
session state modelled here. -/
def listingPhase (inp : RerunInput) (s : SessionState) : SessionState :=
  if s.files_loaded then
    match s.disk with
    | DiskState.absent => s
    | DiskState.repoAt _ =>
      let key1 : ListingKey :=
        { repo_url := inp.repo_url
          clone_dir := clone_dir_path
          subdirectory_filter := inp.subdir_filter
          date_range := none }
      let r1 := get_filtered_files inp.world key1 s.cache s.disk
      let s1 := { s with cache := r1.cache, disk := r1.disk }
      match r1.table with
      | Except.error _ => s1
      | Except.ok _ =>
        match inp.date_range with
        | none => s1
        | some dr =>
          let key2 : ListingKey := { key1 with date_range := some dr }
          let r2 := get_filtered_files inp.world key2 s1.cache s1.disk
          { s1 with cache := r2.cache, disk := r2.disk }
  else s

/-- One full rerun of `main`'s body for a given set of widget values. -/
def rerun (inp : RerunInput) (s : SessionState) : SessionState :=
  let s1 := urlCheckPhase inp s
  let out := cloneButtonPhase inp s1
  if out.2 then out.1 else listingPhase inp out.1

/-- The session at the first rerun: empty last URL (line 92), nothing
loaded (line 95), no working directory, empty memo table. -/
def initialSession : SessionState :=
  { last_repo_url := [], files_loaded := false, disk := DiskState.absent, cache := [] }

/-- The spec's invariant: the working directory on disk always corresponds
to the most recently requested repository URL. -/
def sessionDiskInvariant (s : SessionState) : Prop :=
  s.disk = DiskState.absent ∨ s.disk = DiskState.repoAt s.last_repo_url

/-! ### Helper lemmas about `takeWhile` / `dropWhile` on appends -/

theorem takeWhile_of_all {α : Type} (p : α → Bool) (l : List α)
    (h : ∀ x ∈ l, p x = true) : l.takeWhile p = l := by
  induction l with
  | nil => rfl
  | cons x xs ih =>
    have hx := h x (List.mem_cons_self x xs)
    simp [List.takeWhile_cons, hx, ih (fun y hy => h y (List.mem_cons_of_mem x hy))]

theorem takeWhile_append_stop {α : Type} (p : α → Bool) (l₁ : List α) (a : α) (l₂ : List α)
    (h₁ : ∀ x ∈ l₁, p x = true) (h₂ : p a = false) :
    (l₁ ++ a :: l₂).takeWhile p = l₁ := by
  induction l₁ with
  | nil => simp [List.takeWhile_cons, h₂]
  | cons x xs ih =>
    have hx := h₁ x (List.mem_cons_self x xs)
    simp [List.takeWhile_cons, hx, ih (fun y hy => h₁ y (List.mem_cons_of_mem x hy))]

theorem dropWhile_of_all {α : Type} (p : α → Bool) (l : List α)
    (h : ∀ x ∈ l, p x = true) : l.dropWhile p = [] := by
  induction l with
  | nil => rfl
  | cons x xs ih =>
    have hx := h x (List.mem_cons_self x xs)
    simp [List.dropWhile_cons, hx, ih (fun y hy => h y (List.mem_cons_of_mem x hy))]

theorem dropWhile_append_stop {α : Type} (p : α → Bool) (l₁ : List α) (a : α) (l₂ : List α)
    (h₁ : ∀ x ∈ l₁, p x = true) (h₂ : p a = false) :
    (l₁ ++ a :: l₂).dropWhile p = a :: l₂ := by
  induction l₁ with
  | nil => simp [List.dropWhile_cons, h₂]
  | cons x xs ih =>
    have hx := h₁ x (List.mem_cons_self x xs)
    simp [List.dropWhile_cons, hx, ih (fun y hy => h₁ y (List.mem_cons_of_mem x hy))]

/-! ### Path lemmas: `basename`, `dirname` and `pathJoin` on normalized
repository paths -/

theorem basename_no_sep (c : Str) (h : sep ∉ c) : basename c = c := by
  unfold basename
  rw [takeWhile_of_all _ _ (fun x hx => by
    simp only [decide_eq_true_eq]
    exact fun hxe => h (hxe ▸ List.mem_reverse.mp hx))]
  exact List.reverse_reverse c

theorem basename_append (x c : Str) (h : sep ∉ c) : basename (x ++ sep :: c) = c := by
  unfold basename
  rw [show (x ++ sep :: c).reverse = c.reverse ++ sep :: x.reverse by simp]
  rw [takeWhile_append_stop _ _ _ _ (fun y hy => by
      simp only [decide_eq_true_eq]
      exact fun hye => h (hye ▸ List.mem_reverse.mp hy))
    (by simp)]
  exact List.reverse_reverse c

theorem rawHead_no_sep (c : Str) (h : sep ∉ c) : rawHead c = [] := by
  unfold rawHead
  rw [dropWhile_of_all _ _ (fun x hx => by
    simp only [decide_eq_true_eq]
    exact fun hxe => h (hxe ▸ List.mem_reverse.mp hx))]
  rfl

theorem rawHead_append (x c : Str) (h : sep ∉ c) : rawHead (x ++ sep :: c) = x ++ [sep] := by
  unfold rawHead
  rw [show (x ++ sep :: c).reverse = c.reverse ++ sep :: x.reverse by simp]
  rw [dropWhile_append_stop _ _ _ _ (fun y hy => by
      simp only [decide_eq_true_eq]
      exact fun hye => h (hye ▸ List.mem_reverse.mp hy))
    (by simp)]
  simp

theorem normPath_cons (c : Str) (cs : List Str) (h : cs ≠ []) :
    normPath (c :: cs) = c ++ sep :: normPath cs := by
  match cs with
  | [] => exact absurd rfl h
  | d :: ds => rfl

theorem normPath_concat (cs : List Str) (c : Str) (h : cs ≠ []) :
    normPath (cs ++ [c]) = normPath cs ++ sep :: c := by
  induction cs with
  | nil => exact absurd rfl h
  | cons a as ih =>
    match as with
    | [] => rfl
    | b :: bs =>
      rw [List.cons_append, normPath_cons a (b :: bs ++ [c]) (by simp),
        normPath_cons a (b :: bs) (by simp), ih (by simp)]
      simp

theorem normComps_head (comps : List Str) (h : NormComps comps) :
    ∃ ch t, normPath comps = ch :: t ∧ ch ≠ sep := by
  obtain ⟨hne, hall⟩ := h
  match comps with
  | [] => exact absurd rfl hne
  | c :: cs =>
    obtain ⟨hcne, hcsep⟩ := hall c (List.mem_cons_self c cs)
    match hc : c with
    | [] => exact absurd rfl hcne
    | ch :: t =>
      match cs with
      | [] => exact ⟨ch, t, rfl, fun he => hcsep (he ▸ List.mem_cons_self ch t)⟩
      | d :: ds =>
        refine ⟨ch, t ++ sep :: normPath (d :: ds), ?_,
          fun he => hcsep (he ▸ List.mem_cons_self ch t)⟩
        rw [normPath_cons _ _ (by simp)]
        simp

theorem normPath_ne_nil (comps : List Str) (h : NormComps comps) :
    normPath comps ≠ [] := by
  obtain ⟨ch, t, heq, _⟩ := normComps_head comps h
  rw [heq]
  simp

theorem normComps_reverse_head (comps : List Str) (h : NormComps comps) :
    ∃ ch t, (normPath comps).reverse = ch :: t ∧ ch ≠ sep := by
  obtain ⟨hne, hall⟩ := h
  induction comps with
  | nil => exact absurd rfl hne
  | cons c cs ih =>
    match cs with
    | [] =>
      obtain ⟨hcne, hcsep⟩ := hall c (List.mem_cons_self c [])
      match hr : c.reverse with
      | [] => exact absurd (by simpa using congrArg List.reverse hr) hcne
      | ch :: t =>
        have hch : ch ∈ c := List.mem_reverse.mp (hr ▸ List.mem_cons_self ch t)
        exact ⟨ch, t, rfl, fun he => hcsep (he ▸ hch)⟩
    | d :: ds =>
      obtain ⟨ch, t, heq, hchsep⟩ :=
        ih (by simp) (fun x hx => hall x (List.mem_cons_of_mem c hx))
      refine ⟨ch, t ++ sep :: c.reverse, ?_, hchsep⟩
      rw [normPath_cons c (d :: ds) (by simp)]
      simp [heq]

theorem normPath_getLast? (comps : List Str) (h : NormComps comps) :
    ∃ ch, (normPath comps).getLast? = some ch ∧ ch ≠ sep := by
  obtain ⟨ch, t, heq, hchsep⟩ := normComps_reverse_head comps h
  refine ⟨ch, ?_, hchsep⟩
  rw [← List.head?_reverse, heq]
  rfl

theorem rstripSep_append_sep (x : Str) (hx : ∃ ch t, x.reverse = ch :: t ∧ ch ≠ sep) :
    rstripSep (x ++ [sep]) = x := by
  obtain ⟨ch, t, heq, hchsep⟩ := hx
  unfold rstripSep
  rw [show (x ++ [sep]).reverse = sep :: x.reverse by simp]
  rw [List.dropWhile_cons]
  simp only [decide_eq_true_eq, if_pos rfl]
  rw [heq, List.dropWhile_cons]
  simp only [decide_eq_true_eq, hchsep, if_neg]
  rw [← heq]
  exact List.reverse_reverse x

theorem dirname_single (c : Str) (h : sep ∉ c) : dirname c = [] := by
  unfold dirname
  rw [rawHead_no_sep c h]
  simp

theorem dirname_normPath (comps : List Str) (c : Str) (hcomps : NormComps comps)
    (hc : c ≠ [] ∧ sep ∉ c) :
    dirname (normPath (comps ++ [c])) = normPath comps := by
  rw [normPath_concat comps c hcomps.1]
  unfold dirname
  rw [show normPath comps ++ sep :: c = (normPath comps ++ [sep]) ++ c by simp,
    show (normPath comps ++ [sep]) ++ c = normPath comps ++ sep :: c by simp]
  rw [rawHead_append (normPath comps) c hc.2]
  obtain ⟨ch, t, hhead, hchsep⟩ := normComps_head comps hcomps
  have hall : (normPath comps ++ [sep]).all (fun x => decide (x = sep)) = false := by
    rw [hhead]
    simp [hchsep]
  rw [if_pos ⟨by simp, by simp [hall]⟩]
  exact rstripSep_append_sep (normPath comps) (normComps_reverse_head comps hcomps)

theorem basename_normPath (comps : List Str) (c : Str) (hcomps : comps = [] ∨ NormComps comps)
    (hc : c ≠ [] ∧ sep ∉ c) :
    basename (normPath (comps ++ [c])) = c := by
  match comps with
  | [] => exact basename_no_sep c hc.2
  | d :: ds =>
    rw [normPath_concat (d :: ds) c (by simp)]
    exact basename_append _ c hc.2

theorem dirname_basename_join (p : Str) (h : IsNormPath p) :
    pathJoin (dirname p) (basename p) = p := by
  obtain ⟨comps, hcomps, rfl⟩ := h
  obtain ⟨hne, hall⟩ := hcomps
  obtain ⟨cs, c, hsplit⟩ := (List.eq_nil_or_concat comps).resolve_left hne
  rw [List.concat_eq_append] at hsplit
  subst hsplit
  have hc := hall c (by simp)
  obtain ⟨ch, t, hcc⟩ : ∃ ch t, c = ch :: t := by
    match c, hc.1 with
    | x :: xs, _ => exact ⟨x, xs, rfl⟩
  have hch : ch ∈ c := by
    rw [hcc]
    exact List.mem_cons_self ch t
  have hchsep : ch ≠ sep := fun he => hc.2 (he ▸ hch)
  have hchead : ¬ (c.head? = some sep) := by
    rw [hcc]
    simp [hchsep]
  match cs with
  | [] =>
    simp only [List.nil_append]
    rw [show normPath [c] = c from rfl, basename_no_sep c hc.2, dirname_single c hc.2]
    unfold pathJoin
    rw [if_neg hchead, if_pos (Or.inl rfl)]
    rfl
  | d :: ds =>
    have hcs : NormComps (d :: ds) :=
      ⟨by simp, fun x hx => hall x (List.mem_append_left [c] hx)⟩
    rw [basename_normPath (d :: ds) c (Or.inr hcs) hc,
      dirname_normPath (d :: ds) c hcs hc]
    unfold pathJoin
    obtain ⟨lch, hlast, hlsep⟩ := normPath_getLast? (d :: ds) hcs
    rw [if_neg hchead, if_neg, normPath_concat (d :: ds) c (by simp)]
    intro habs
    rcases habs with habs | habs
    · exact normPath_ne_nil (d :: ds) hcs habs
    · rw [hlast] at habs
      exact hlsep (by simpa using habs)

/-! ### Helper lemmas about the filesystem model and the copy loop -/

theorem getFile_setFile_self (l : List (Str × Str)) (k v : Str) :
    getFile (setFile l k v) k = some v := by
  induction l with
  | nil => simp [setFile, getFile]
  | cons kv rest ih =>
    obtain ⟨k0, v0⟩ := kv
    by_cases hk : k0 = k
    · simp [setFile, hk, getFile]
    · simp [setFile, hk, getFile, ih]

theorem getFile_setFile_ne (l : List (Str × Str)) (k v k' : Str) (h : k' ≠ k) :
    getFile (setFile l k v) k' = getFile l k' := by
  induction l with
  | nil =>
    show (if k = k' then some v else none) = none
    rw [if_neg (Ne.symm h)]
  | cons kv rest ih =>
    obtain ⟨k0, v0⟩ := kv
    by_cases hk : k0 = k
    · subst hk
      simp only [setFile, if_pos rfl, getFile, if_neg (Ne.symm h)]
    · simp only [setFile, if_neg hk, getFile]
      by_cases hk' : k0 = k'
      · rw [if_pos hk', if_pos hk']
      · rw [if_neg hk', if_neg hk', ih]

theorem makedirs_files (d : Str) (fs : FS) : (makedirs d fs).files = fs.files := by
  unfold makedirs
  split <;> rfl

theorem mem_makedirs_self (d : Str) (fs : FS) : d ∈ (makedirs d fs).dirs := by
  unfold makedirs
  split
  · assumption
  · exact List.mem_cons_self d fs.dirs

theorem mem_makedirs_mono (d x : Str) (fs : FS) (h : x ∈ fs.dirs) :
    x ∈ (makedirs d fs).dirs := by
  unfold makedirs
  split
  · exact h
  · exact List.mem_cons_of_mem d h

theorem copy2_dirs (src dst : Str) (fs : FS) : (copy2 src dst fs).1.dirs = fs.dirs := by
  unfold copy2
  split <;> (try split) <;> rfl

theorem copyLoop_dirs_mono (rows : List FileRecord) (cd dl : Str) (fs : FS) (b : Bool)
    (d : Str) (h : d ∈ fs.dirs) : d ∈ (copyLoop rows cd dl fs b).1.dirs := by
  induction rows generalizing fs b with
  | nil => exact h
  | cons row rest ih =>
    show d ∈ (copyLoop rest cd dl _ _).1.dirs
    apply ih
    rw [copy2_dirs]
    exact mem_makedirs_mono _ d _ h

theorem copyLoop_files_frame (rows : List FileRecord) (cd dl : Str) (fs : FS) (b : Bool)
    (p : Str) (h : ∀ r ∈ rows, destPathOf dl r ≠ p) :
    getFile (copyLoop rows cd dl fs b).1.files p = getFile fs.files p := by
  induction rows generalizing fs b with
  | nil => rfl
  | cons row rest ih =>
    have hrow := h row (List.mem_cons_self row rest)
    have hrest : ∀ r ∈ rest, destPathOf dl r ≠ p :=
      fun r hmem => h r (List.mem_cons_of_mem row hmem)
    show getFile (copyLoop rest cd dl (copy2 _ _ _).1 _).1.files p = _
    rw [ih _ _ hrest]
    unfold copy2
    split
    · split
      · exact (getFile_setFile_ne _ _ _ p hrow.symm).trans
          (congrArg (fun l => getFile l p) (makedirs_files _ fs))
      · exact congrArg (fun l => getFile l p) (makedirs_files _ fs)
    · exact congrArg (fun l => getFile l p) (makedirs_files _ fs)

theorem copyLoop_all_success (rows : List FileRecord) (cd dl : Str) (fs : FS)
    (hsrc : ∀ r ∈ rows, getFile fs.files (sourcePathOf cd r) ≠ none)
    (hnodup : (rows.map (destPathOf dl)).Nodup)
    (hdisj : ∀ r ∈ rows, ∀ r' ∈ rows, destPathOf dl r ≠ sourcePathOf cd r') :
    (copyLoop rows cd dl fs false).2 = false
  ∧ ∀ r ∈ rows,
      getFile (copyLoop rows cd dl fs false).1.files (destPathOf dl r)
        = getFile fs.files (sourcePathOf cd r)
      ∧ dirname (destPathOf dl r) ∈ (copyLoop rows cd dl fs false).1.dirs := by
  induction rows generalizing fs with
  | nil => exact ⟨rfl, fun r hr => absurd hr (List.not_mem_nil r)⟩
  | cons row rest ih =>
    have hmemrow := List.mem_cons_self row rest
    cases hs : getFile fs.files (sourcePathOf cd row) with
    | none => exact absurd hs (hsrc row hmemrow)
    | some content =>
      have hs1 : getFile (makedirs (dirname (destPathOf dl row)) fs).files
          (sourcePathOf cd row) = some content := by
        rw [makedirs_files]
        exact hs
      have hdir1 : dirname (destPathOf dl row)
          ∈ (makedirs (dirname (destPathOf dl row)) fs).dirs := mem_makedirs_self _ fs
      set fs2 : FS :=
        { (makedirs (dirname (destPathOf dl row)) fs) with
          files := setFile (makedirs (dirname (destPathOf dl row)) fs).files
            (destPathOf dl row) content } with hfs2
      have hcopy : copy2 (sourcePathOf cd row) (destPathOf dl row)
          (makedirs (dirname (destPathOf dl row)) fs) = (fs2, true) := by
        simp only [copy2, hs1, hdir1, if_true]
      have hloopstep : copyLoop (row :: rest) cd dl fs false
          = copyLoop rest cd dl fs2 false := by
        show copyLoop rest cd dl (copy2 _ _ _).1 (false || !(copy2 _ _ _).2) = _
        rw [hcopy]
        rfl
      have hsrc2 : ∀ r ∈ rest, getFile fs2.files (sourcePathOf cd r) ≠ none := by
        intro r hmem
        have hne : sourcePathOf cd r ≠ destPathOf dl row :=
          fun he => hdisj row hmemrow r (List.mem_cons_of_mem row hmem) he.symm
        rw [hfs2]
        show getFile (setFile _ _ _) _ ≠ none
        rw [getFile_setFile_ne _ _ _ _ hne, makedirs_files]
        exact hsrc r (List.mem_cons_of_mem row hmem)
      have hnodup2 : (rest.map (destPathOf dl)).Nodup := (List.nodup_cons.mp hnodup).2
      have hdisj2 : ∀ r ∈ rest, ∀ r' ∈ rest, destPathOf dl r ≠ sourcePathOf cd r' :=
        fun r hr r' hr' => hdisj r (List.mem_cons_of_mem row hr) r' (List.mem_cons_of_mem row hr')
      obtain ⟨hflag, hrest⟩ := ih fs2 hsrc2 hnodup2 hdisj2
      constructor
      · rw [hloopstep]
        exact hflag
      · intro r hr
        rcases List.mem_cons.mp hr with hrr | hrr
        · subst hrr
          constructor
          · rw [hloopstep,
              copyLoop_files_frame rest cd dl fs2 false (destPathOf dl r)
                (fun r' hmem' he =>
                  (List.nodup_cons.mp hnodup).1 (he ▸ List.mem_map_of_mem (destPathOf dl) hmem'))]
            rw [hfs2]
            show getFile (setFile _ _ _) _ = _
            rw [getFile_setFile_self, hs]
          · rw [hloopstep]
            apply copyLoop_dirs_mono
            rw [hfs2]
            show dirname (destPathOf dl r) ∈ (makedirs (dirname (destPathOf dl r)) fs).dirs
            exact mem_makedirs_self _ fs
        · obtain ⟨hval, hdirs⟩ := hrest r hrr
          constructor
          · rw [hloopstep, hval, hfs2]
            show getFile (setFile _ _ _) _ = _
            have hne : sourcePathOf cd r ≠ destPathOf dl row :=
              fun he => hdisj row hmemrow r (List.mem_cons_of_mem row hrr) he.symm
            rw [getFile_setFile_ne _ _ _ _ hne, makedirs_files]
          · rw [hloopstep]
            exact hdirs

/-! ### Helper lemmas about the enumerator and the date filter -/

theorem list_files_none_eq (tree : List TreeEntry) (lastMod : Str → Option Str) :
    list_files_with_git_dates_lazy tree lastMod none
      = (tree.filter (fun e => decide (e.type = EntryType.blob))).map
          (fun e => recordOf lastMod e.path) := by
  induction tree with
  | nil => rfl
  | cons e es ih =>
    by_cases hb : e.type = EntryType.blob
    · simp [list_files_with_git_dates_lazy, skipByFilter, hb, List.filter_cons, ih]
    · simp [list_files_with_git_dates_lazy, hb, List.filter_cons, ih]

theorem list_files_some_eq (tree : List TreeEntry) (lastMod : Str → Option Str)
    (s : Str) (hs : s ≠ []) :
    list_files_with_git_dates_lazy tree lastMod (some s)
      = (tree.filter (fun e =>
          decide (e.type = EntryType.blob) && decide (s <:+: dirname e.path))).map
          (fun e => recordOf lastMod e.path) := by
  induction tree with
  | nil => rfl
  | cons e es ih =>
    have hsE : s.isEmpty = false := by
      cases s with
      | nil => exact absurd rfl hs
      | cons a t => rfl
    by_cases hb : e.type = EntryType.blob
    · by_cases hin : s <:+: dirname e.path
      · simp [list_files_with_git_dates_lazy, skipByFilter, hb, hin, hsE, List.filter_cons, ih]
      · simp [list_files_with_git_dates_lazy, skipByFilter, hb, hin, hsE, List.filter_cons, ih]
    · simp [list_files_with_git_dates_lazy, hb, List.filter_cons, ih]

theorem dateFilterLoop_none (records : List FileRecord) :
    dateFilterLoop records none = records := by
  induction records with
  | nil => rfl
  | cons r rs ih => simp [dateFilterLoop, ih]

theorem dateFilterLoop_eq_filter (records : List FileRecord) (d0 d1 : Date) :
    dateFilterLoop records (some (d0, d1))
      = records.filter (fun r =>
          match strptimeDate r.lastModified with
          | some d => dateLe d0 d && dateLe d d1
          | none => false) := by
  induction records with
  | nil => rfl
  | cons r rs ih =>
    cases hp : strptimeDate r.lastModified with
    | none => simp [dateFilterLoop, hp, List.filter_cons, ih]
    | some d =>
      cases hdd : (dateLe d0 d && dateLe d d1) with
      | false => simp [dateFilterLoop, hp, hdd, List.filter_cons, ih]
      | true => simp [dateFilterLoop, hp, hdd, List.filter_cons, ih]

/-! ### Helper lemmas about the synchronizer, the cache and the session -/

theorem lookupCache_cons_self (k : ListingKey) (t : List FileRecord)
    (c : List (ListingKey × List FileRecord)) :
    lookupCache ((k, t) :: c) k = some t := by
  simp [lookupCache]

theorem sync_disk_inv (url : Str) (d : DiskState) (p c : Bool)
    (h : d = DiskState.absent ∨ d = DiskState.repoAt url) :
    (clone_or_update_repository url d p c).disk = DiskState.absent
  ∨ (clone_or_update_repository url d p c).disk = DiskState.repoAt url := by
  rcases h with h | h <;> subst h <;>
    cases p <;> cases c <;> simp [clone_or_update_repository, remove_directory]

theorem getff_disk_inv (w : RepoWorld) (key : ListingKey)
    (cache : List (ListingKey × List FileRecord)) (d : DiskState)
    (h : d = DiskState.absent ∨ d = DiskState.repoAt key.repo_url) :
    (get_filtered_files w key cache d).disk = DiskState.absent
  ∨ (get_filtered_files w key cache d).disk = DiskState.repoAt key.repo_url := by
  have hs := sync_disk_inv key.repo_url d w.pullOk w.cloneOk h
  unfold get_filtered_files
  dsimp only
  split
  · exact h
  · split
    · exact hs
    · exact hs

theorem urlCheckPhase_last (inp : RerunInput) (s : SessionState) :
    (urlCheckPhase inp s).last_repo_url = inp.repo_url := by
  unfold urlCheckPhase
  split
  · rfl
  · rename_i h
    exact (not_ne_iff.mp h).symm

theorem urlCheckPhase_disk (inp : RerunInput) (s : SessionState)
    (h : sessionDiskInvariant s) :
    (urlCheckPhase inp s).disk = DiskState.absent
  ∨ (urlCheckPhase inp s).disk = DiskState.repoAt inp.repo_url := by
  unfold urlCheckPhase
  split
  · exact Or.inl rfl
  · rename_i hne
    have he : inp.repo_url = s.last_repo_url := not_ne_iff.mp hne
    rcases h with h | h
    · exact Or.inl h
    · exact Or.inr (he ▸ h)

theorem cloneButtonPhase_last (inp : RerunInput) (s : SessionState) :
    (cloneButtonPhase inp s).1.last_repo_url = s.last_repo_url := by
  unfold cloneButtonPhase
  dsimp only
  split
  · split
    · rfl
    · split
      · rfl
      · rfl
  · rfl

theorem cloneButtonPhase_disk (inp : RerunInput) (s : SessionState)
    (h : s.disk = DiskState.absent ∨ s.disk = DiskState.repoAt inp.repo_url) :
    (cloneButtonPhase inp s).1.disk = DiskState.absent
  ∨ (cloneButtonPhase inp s).1.disk = DiskState.repoAt inp.repo_url := by
  have hs := sync_disk_inv inp.repo_url s.disk inp.world.pullOk inp.world.cloneOk h
  unfold cloneButtonPhase
  dsimp only
  split
  · split
    · exact h
    · split
      · exact hs
      · exact hs
  · exact h

theorem listingPhase_last (inp : RerunInput) (s : SessionState) :
    (listingPhase inp s).last_repo_url = s.last_repo_url := by
  unfold listingPhase
  dsimp only
  split
  · split
    · rfl
    · split
      · rfl
      · split
        · rfl
        · rfl
  · rfl

theorem listingPhase_disk (inp : RerunInput) (s : SessionState)
    (h : s.disk = DiskState.absent ∨ s.disk = DiskState.repoAt inp.repo_url) :
    (listingPhase inp s).disk = DiskState.absent
  ∨ (listingPhase inp s).disk = DiskState.repoAt inp.repo_url := by
  have h1 := getff_disk_inv inp.world
    { repo_url := inp.repo_url, clone_dir := clone_dir_path
      subdirectory_filter := inp.subdir_filter, date_range := none }
    s.cache s.disk h
  unfold listingPhase
  dsimp only
  split
  · split
    · exact h
    · split
      · exact h1
      · split
        · exact h1
        · exact getff_disk_inv inp.world _ _ _ h1
  · exact h

theorem rerun_inv (inp : RerunInput) (s : SessionState) (h : sessionDiskInvariant s) :
    sessionDiskInvariant (rerun inp s) := by
  have h1 : (urlCheckPhase inp s).disk = DiskState.absent
      ∨ (urlCheckPhase inp s).disk = DiskState.repoAt inp.repo_url :=
    urlCheckPhase_disk inp s h
  have h2 := cloneButtonPhase_disk inp (urlCheckPhase inp s) h1
  unfold rerun
  dsimp only
  split
  · unfold sessionDiskInvariant
    rw [cloneButtonPhase_last, urlCheckPhase_last]
    exact h2
  · unfold sessionDiskInvariant
    rw [listingPhase_last, cloneButtonPhase_last, urlCheckPhase_last]
    exact listingPhase_disk inp _ h2

theorem basename_normPath_ne_nil (p : Str) (h : IsNormPath p) : basename p ≠ [] := by
  obtain ⟨comps, hcomps, rfl⟩ := h
  obtain ⟨cs, c, hsplit⟩ := (List.eq_nil_or_concat comps).resolve_left hcomps.1
  rw [List.concat_eq_append] at hsplit
  subst hsplit
  have hc := hcomps.2 c (by simp)
  have : basename (normPath (cs ++ [c])) = c := by
    match cs with
    | [] => exact basename_normPath [] c (Or.inl rfl) hc
    | d :: ds =>
      exact basename_normPath (d :: ds) c
        (Or.inr ⟨by simp, fun x hx => hcomps.2 x (List.mem_append_left [c] hx)⟩) hc
  rw [this]
  exact hc.1

/-! ### Claim theorems -/

/-- C1 (evidence of the code bug): in `copy_files_in_parallel`, a failed
copy does not cancel the others — here the second file is still copied to
its destination — but the failure is never reported: worker exceptions stay
inside their futures, `concurrent.futures.wait` (line 80) does not re-raise
them, so the download handler (lines 157-166) reaches the success banner
even though one of the two source files was missing. -/
theorem c1_copy_failure_swallowed :
    (copy_files_in_parallel
        [⟨str "src", str "a.txt", str "Unknown"⟩, ⟨str "src", str "b.txt", str "Unknown"⟩]
        (str "repo") (str "dl") ⟨[(str "repo/src/b.txt", str "B")], []⟩).2 = true
  ∧ getFile (copy_files_in_parallel
        [⟨str "src", str "a.txt", str "Unknown"⟩, ⟨str "src", str "b.txt", str "Unknown"⟩]
        (str "repo") (str "dl") ⟨[(str "repo/src/b.txt", str "B")], []⟩).1.files
        (str "dl/src/b.txt")
      = some (str "B")
  ∧ getFile (copy_files_in_parallel
        [⟨str "src", str "a.txt", str "Unknown"⟩, ⟨str "src", str "b.txt", str "Unknown"⟩]
        (str "repo") (str "dl") ⟨[(str "repo/src/b.txt", str "B")], []⟩).1.files
        (str "dl/src/a.txt")
      = none
  ∧ (downloadAction
        [⟨str "src", str "a.txt", str "Unknown"⟩, ⟨str "src", str "b.txt", str "Unknown"⟩]
        (str "repo") (str "dl") ⟨[(str "repo/src/b.txt", str "B")], []⟩).2
      = Banner.successBanner := by
  exact ⟨by decide, by decide, by decide, by decide⟩

/-- C2: for every input sequence of records and date range [d0, d1], the
date filter returns exactly the records whose "Last Modified" string
parses (per strptime with format '%Y-%m-%d %H:%M:%S') to a date d with
d0 ≤ d ≤ d1, both ends inclusive, in input traversal order (the output is
a sublist of the input); the "Unknown" sentinel fails to parse and records
that fail to parse are dropped silently; with no range every record passes
through; and `filter_files_on_load` is exactly this loop applied to the
enumerator's output. -/
theorem c2_date_filter_exact (records : List FileRecord) (d0 d1 : Date) :
    dateFilterLoop records (some (d0, d1))
      = records.filter (fun r =>
          match strptimeDate r.lastModified with
          | some d => dateLe d0 d && dateLe d d1
          | none => false)
  ∧ (dateFilterLoop records (some (d0, d1))).Sublist records
  ∧ dateFilterLoop records none = records
  ∧ strptimeDate (str "Unknown") = none
  ∧ ∀ (tree : List TreeEntry) (lastMod : Str → Option Str) (sf : Option Str),
      filter_files_on_load tree lastMod sf (some (d0, d1))
        = dateFilterLoop (list_files_with_git_dates_lazy tree lastMod sf) (some (d0, d1)) := by
  refine ⟨dateFilterLoop_eq_filter records d0 d1, ?_, dateFilterLoop_none records,
    by decide, fun _ _ _ => rfl⟩
  rw [dateFilterLoop_eq_filter records d0 d1]
  exact List.filter_sublist records

/-- C3: with a non-empty subdirectory filter string S, the enumerator
yields exactly one record for each tracked blob whose containing directory
contains S as a substring (loose containment, not exact or prefix path
matching), in traversal order, and every yielded record has S as a
substring of its subdirectory field. -/
theorem c3_subdirectory_filter (tree : List TreeEntry) (lastMod : Str → Option Str)
    (s : Str) (hs : s ≠ []) :
    list_files_with_git_dates_lazy tree lastMod (some s)
      = (tree.filter (fun e =>
          decide (e.type = EntryType.blob) && decide (s <:+: dirname e.path))).map
          (fun e => recordOf lastMod e.path)
  ∧ ∀ r ∈ list_files_with_git_dates_lazy tree lastMod (some s), s <:+: r.subdirectory := by
  refine ⟨list_files_some_eq tree lastMod s hs, ?_⟩
  intro r hr
  rw [list_files_some_eq tree lastMod s hs] at hr
  obtain ⟨e, he, rfl⟩ := List.mem_map.mp hr
  have hkeep := List.of_mem_filter he
  have h2 := (Bool.and_eq_true _ _).mp hkeep |>.2
  exact of_decide_eq_true h2

/-- C3 witness: the filter "src" applied to a one-blob tree, with the
claim's substring conclusion discharged at the resulting record. -/
theorem c3_subdirectory_filter_witness :
    str "src" <:+: (⟨str "src", str "a.py", str "Unknown"⟩ : FileRecord).subdirectory :=
  (c3_subdirectory_filter [⟨EntryType.blob, str "src/a.py"⟩] (fun _ => none)
      (str "src") (by decide)).2
    ⟨str "src", str "a.py", str "Unknown"⟩ (by decide)

/-- C4: with no subdirectory filter, the enumerator yields exactly one
record per tracked blob, in traversal order — so exactly N records for N
tracked files — and, since every path stored in a git tree is a join of
nonempty slash-free components, every yielded record has a non-empty
filename field. -/
theorem c4_enumeration_complete (tree : List TreeEntry) (lastMod : Str → Option Str)
    (hnorm : ∀ e ∈ tree, e.type = EntryType.blob → IsNormPath e.path) :
    list_files_with_git_dates_lazy tree lastMod none
      = (tree.filter (fun e => decide (e.type = EntryType.blob))).map
          (fun e => recordOf lastMod e.path)
  ∧ (list_files_with_git_dates_lazy tree lastMod none).length
      = (tree.filter (fun e => decide (e.type = EntryType.blob))).length
  ∧ ∀ r ∈ list_files_with_git_dates_lazy tree lastMod none, r.file ≠ [] := by
  refine ⟨list_files_none_eq tree lastMod, ?_, ?_⟩
  · rw [list_files_none_eq tree lastMod, List.length_map]
  · intro r hr
    rw [list_files_none_eq tree lastMod] at hr
    obtain ⟨e, he, rfl⟩ := List.mem_map.mp hr
    have hkeep := List.of_mem_filter he
    simp only [decide_eq_true_eq] at hkeep
    exact basename_normPath_ne_nil e.path (hnorm e (List.mem_of_mem_filter he) hkeep)

/-- C4 witness: a two-entry tree (one blob, one directory) enumerates to
exactly one record, whose filename is non-empty. -/
theorem c4_enumeration_complete_witness :
    list_files_with_git_dates_lazy
        [⟨EntryType.blob, str "src/a.py"⟩, ⟨EntryType.tree, str "src"⟩]
        (fun _ => none) none
      = [⟨str "src", str "a.py", str "Unknown"⟩]
  ∧ (⟨str "src", str "a.py", str "Unknown"⟩ : FileRecord).file ≠ [] := by
  have h := c4_enumeration_complete
    [⟨EntryType.blob, str "src/a.py"⟩, ⟨EntryType.tree, str "src"⟩]
    (fun _ => none)
    (by
      intro e he hb
      have hcases : e = ⟨EntryType.blob, str "src/a.py"⟩ ∨ e = ⟨EntryType.tree, str "src"⟩ := by
        simpa using he
      rcases hcases with rfl | rfl
      · exact ⟨[str "src", str "a.py"], ⟨by decide, by decide⟩, by decide⟩
      · exact absurd hb (by decide))
  refine ⟨by decide, ?_⟩
  apply h.2.2
  decide

/-- C5: calling the cached listing twice with the same argument tuple
returns the same table with the same row order, and the second call is a
pure cache hit — it leaves the memo table and the disk untouched and
performs no repository or filesystem access. -/
theorem c5_cache_idempotent (w : RepoWorld) (key : ListingKey)
    (cache : List (ListingKey × List FileRecord)) (disk : DiskState) (t : List FileRecord)
    (h : (get_filtered_files w key cache disk).table = Except.ok t) :
    get_filtered_files w key (get_filtered_files w key cache disk).cache
        (get_filtered_files w key cache disk).disk
      = { table := Except.ok t
          cache := (get_filtered_files w key cache disk).cache
          disk := (get_filtered_files w key cache disk).disk
          effects := [] } := by
  cases hl : lookupCache cache key with
  | some t0 =>
    have hfirst : get_filtered_files w key cache disk
        = { table := Except.ok t0, cache := cache, disk := disk, effects := [] } := by
      unfold get_filtered_files
      rw [hl]
    rw [hfirst] at h
    dsimp only at h
    have ht : t0 = t := by simpa using h
    subst ht
    rw [hfirst]
    dsimp only
    exact hfirst
  | none =>
    cases hh : (clone_or_update_repository key.repo_url disk w.pullOk w.cloneOk).handle with
    | error e =>
      have hfirst : get_filtered_files w key cache disk
          = { table := Except.error e, cache := cache
              disk := (clone_or_update_repository key.repo_url disk w.pullOk w.cloneOk).disk
              effects := [AccessEffect.repositoryAccess, AccessEffect.filesystemAccess] } := by
        unfold get_filtered_files
        rw [hl]
        dsimp only
        rw [hh]
      rw [hfirst] at h
      dsimp only at h
      exact absurd h (by simp)
    | ok r =>
      have hfirst : get_filtered_files w key cache disk
          = { table := Except.ok
                (filter_files_on_load w.tree w.lastMod key.subdirectory_filter key.date_range)
              cache := (key,
                filter_files_on_load w.tree w.lastMod key.subdirectory_filter key.date_range)
                :: cache
              disk := (clone_or_update_repository key.repo_url disk w.pullOk w.cloneOk).disk
              effects := [AccessEffect.repositoryAccess, AccessEffect.filesystemAccess] } := by
        unfold get_filtered_files
        rw [hl]
        dsimp only
        rw [hh]
      rw [hfirst] at h
      dsimp only at h
      have ht : filter_files_on_load w.tree w.lastMod key.subdirectory_filter key.date_range
          = t := by
        simpa using h
      subst ht
      rw [hfirst]
      dsimp only
      unfold get_filtered_files
      rw [lookupCache_cons_self]

/-- C5 witness: a miss followed by a hit on an empty world. -/
theorem c5_cache_idempotent_witness :
    (get_filtered_files ⟨[], fun _ => none, true, true⟩
        ⟨str "u", clone_dir_path, none, none⟩
        (get_filtered_files ⟨[], fun _ => none, true, true⟩
          ⟨str "u", clone_dir_path, none, none⟩ [] DiskState.absent).cache
        (get_filtered_files ⟨[], fun _ => none, true, true⟩
          ⟨str "u", clone_dir_path, none, none⟩ [] DiskState.absent).disk).effects
      = [] := by
  have h := c5_cache_idempotent ⟨[], fun _ => none, true, true⟩
    ⟨str "u", clone_dir_path, none, none⟩ [] DiskState.absent [] rfl
  rw [h]

/-- C6: if the working directory is absent the synchronizer clones fresh
(no pull, no delete); if it is present it first attempts the update; and
on any failure of the update it deletes the directory entirely and clones
fresh from the requested url — on clone success the directory then tracks
that url. -/
theorem c6_clone_or_update_policy (url u : Str) (pOk cOk : Bool) :
    (clone_or_update_repository url DiskState.absent pOk cOk).trace
      = [GitAction.cloneFrom url]
  ∧ (clone_or_update_repository url (DiskState.repoAt u) true cOk).trace
      = [GitAction.openAndPull]
  ∧ (clone_or_update_repository url (DiskState.repoAt u) true cOk).handle = Except.ok ⟨u⟩
  ∧ (clone_or_update_repository url (DiskState.repoAt u) false cOk).trace
      = [GitAction.openAndPull, GitAction.removeDir, GitAction.cloneFrom url]
  ∧ (clone_or_update_repository url (DiskState.repoAt u) false true).disk
      = DiskState.repoAt url
  ∧ (clone_or_update_repository url (DiskState.repoAt u) false true).handle
      = Except.ok ⟨url⟩ := by
  refine ⟨?_, rfl, rfl, ?_, rfl, rfl⟩
  · cases cOk <;> rfl
  · cases cOk <;> rfl

/-- C7: when every selected row's source file is readable, the destination
paths are distinct and no destination path collides with a source path,
the copy batch records no failure, every destination directory has been
created, and each of the K distinct destination paths holds exactly the
content of its source. -/
theorem c7_copy_completeness (rows : List FileRecord) (clone_dir download_dir : Str)
    (fs : FS)
    (hsrc : ∀ r ∈ rows, getFile fs.files (sourcePathOf clone_dir r) ≠ none)
    (hnodup : (rows.map (destPathOf download_dir)).Nodup)
    (hdisj : ∀ r ∈ rows, ∀ r' ∈ rows,
      destPathOf download_dir r ≠ sourcePathOf clone_dir r') :
    (copy_files_in_parallel rows clone_dir download_dir fs).2 = false
  ∧ ∀ r ∈ rows,
      getFile (copy_files_in_parallel rows clone_dir download_dir fs).1.files
          (destPathOf download_dir r)
        = getFile fs.files (sourcePathOf clone_dir r)
      ∧ dirname (destPathOf download_dir r)
          ∈ (copy_files_in_parallel rows clone_dir download_dir fs).1.dirs := by
  have h := copyLoop_all_success rows clone_dir download_dir (makedirs download_dir fs)
    (by
      intro r hr
      rw [makedirs_files]
      exact hsrc r hr)
    hnodup hdisj
  refine ⟨h.1, fun r hr => ⟨?_, (h.2 r hr).2⟩⟩
  show getFile (copyLoop rows clone_dir download_dir (makedirs download_dir fs) false).1.files
      (destPathOf download_dir r) = _
  rw [(h.2 r hr).1, makedirs_files]

/-- C7 witness: one readable file is copied to its destination with no
failure recorded. -/
theorem c7_copy_completeness_witness :
    (copy_files_in_parallel [⟨str "src", str "a.py", str "Unknown"⟩]
        (str "repo") (str "dl") ⟨[(str "repo/src/a.py", str "X")], []⟩).2 = false
  ∧ getFile (copy_files_in_parallel [⟨str "src", str "a.py", str "Unknown"⟩]
        (str "repo") (str "dl") ⟨[(str "repo/src/a.py", str "X")], []⟩).1.files
        (str "dl/src/a.py")
      = some (str "X") := by
  have h := c7_copy_completeness [⟨str "src", str "a.py", str "Unknown"⟩]
    (str "repo") (str "dl") ⟨[(str "repo/src/a.py", str "X")], []⟩
    (by decide) (by decide) (by decide)
  refine ⟨h.1, ?_⟩
  have h2 := (h.2 ⟨str "src", str "a.py", str "Unknown"⟩ (by decide)).1
  rw [show destPathOf (str "dl") ⟨str "src", str "a.py", str "Unknown"⟩
      = str "dl/src/a.py" from by decide] at h2
  rw [h2]
  decide

/-- C8: across every interactive session, the working directory on disk
corresponds to the most recently requested repository URL — it is either
absent or a clone of the session's last URL — and whenever the entered URL
differs from the previous one, the URL-change check deletes any existing
working directory before the clone and listing steps of that rerun run. -/
theorem c8_session_url_invariant :
    (∀ inputs : List RerunInput,
      sessionDiskInvariant (inputs.foldl (fun s inp => rerun inp s) initialSession))
  ∧ ∀ (inp : RerunInput) (s : SessionState), inp.repo_url ≠ s.last_repo_url →
      (urlCheckPhase inp s).disk = DiskState.absent := by
  constructor
  · intro inputs
    have hstep : ∀ s, sessionDiskInvariant s →
        sessionDiskInvariant (inputs.foldl (fun s inp => rerun inp s) s) := by
      induction inputs with
      | nil => exact fun s hs => hs
      | cons i is ih => exact fun s hs => ih (rerun i s) (rerun_inv i s hs)
    exact hstep initialSession (Or.inl rfl)
  · intro inp s hne
    unfold urlCheckPhase
    rw [if_pos hne]
    rfl

/-- C8 witness: a one-rerun session satisfies the invariant, and a URL
change from the initial state leaves the disk empty after the check. -/
theorem c8_session_url_invariant_witness :
    sessionDiskInvariant
      (([⟨str "u", true, none, none, ⟨[], fun _ => none, true, true⟩⟩] : List RerunInput).foldl
        (fun s inp => rerun inp s) initialSession)
  ∧ (urlCheckPhase ⟨str "u", true, none, none, ⟨[], fun _ => none, true, true⟩⟩
      initialSession).disk = DiskState.absent :=
  ⟨c8_session_url_invariant.1 [⟨str "u", true, none, none, ⟨[], fun _ => none, true, true⟩⟩],
    c8_session_url_invariant.2 ⟨str "u", true, none, none, ⟨[], fun _ => none, true, true⟩⟩
      initialSession (by decide)⟩

/-- C9: when the working directory exists and opening it plus pulling from
its `origin` succeed, the synchronizer's result does not depend on the
`repo_url` argument at all, and the returned handle tracks the directory's
existing origin — so `clone_or_update_repository url dir` alone does not
guarantee the returned handle tracks `url`. -/
theorem c9_pull_success_ignores_url (url₁ url₂ u : Str) (cOk₁ cOk₂ : Bool) :
    clone_or_update_repository url₁ (DiskState.repoAt u) true cOk₁
      = clone_or_update_repository url₂ (DiskState.repoAt u) true cOk₂
  ∧ (clone_or_update_repository url₁ (DiskState.repoAt u) true cOk₁).handle
      = Except.ok ⟨u⟩ :=
  ⟨rfl, rfl⟩

/-- C10: for every enumerated record with a normalized blob path, joining
the Subdirectory and File fields with the separator reconstructs exactly
the blob's repository-relative path, so the source path the copier
computes for the record is precisely the working-directory location of the
tracked file the record came from. -/
theorem c10_record_path_roundtrip (lastMod : Str → Option Str) (p : Str)
    (h : IsNormPath p) (clone_dir : Str) :
    relativePathOf (recordOf lastMod p) = p
  ∧ sourcePathOf clone_dir (recordOf lastMod p) = pathJoin clone_dir p := by
  have h1 : relativePathOf (recordOf lastMod p) = p := dirname_basename_join p h
  refine ⟨h1, ?_⟩
  unfold sourcePathOf
  rw [h1]

/-- C10 witness: the round trip at the path "src/a.py". -/
theorem c10_record_path_roundtrip_witness :
    relativePathOf (recordOf (fun _ => none) (str "src/a.py")) = str "src/a.py" :=
  (c10_record_path_roundtrip (fun _ => none) (str "src/a.py")
    ⟨[str "src", str "a.py"], ⟨by decide, by decide⟩, by decide⟩ []).1

end GitFileSelector
